import Mathlib

/-!
# Verification of `newlib/libc/machine/arm/aeabi_memclr.c`

The file defines `__aeabi_memclr (void *dest, size_t n)`, whose body is the single call
`__aeabi_memset (dest, n, 0)` to an `extern` routine, together with the two symbol aliases
`__aeabi_memclr4` and `__aeabi_memclr8`.

Embedding.
* Memory is one buffer of bytes, `Mem`; a pointer into it is a byte offset.
* A routine that writes memory is a function `Mem → Option Mem`; `none` is a faulting
  (out-of-buffer) access.
* `__aeabi_memset` is only declared in this file (`extern`), so the routines take it as a
  parameter `fill : Fill`.  What the specification assumes of it is the predicate `FillSpec`
  (and its two halves `FillWrites`, `FillFrame`); an executable byte loop `__aeabi_memset`
  satisfying it is given to instantiate the theorems on concrete buffers.
-/

namespace AeabiMemclr

/-- One buffer of bytes, each stored as a natural number below 256. -/
abbrev Mem := List Nat

/-- The type of the external routine `void __aeabi_memset (void *dest, size_t n, int c)`:
destination offset, length, fill value, memory before; memory after, or `none` on a fault. -/
abbrev Fill := Nat → Nat → Int → Mem → Option Mem

/-- Conversion of an `int` fill value to the `unsigned char` that is stored. -/
def toByte (c : Int) : Nat := (c % 256).toNat

/-- The range `[dest, dest + n)` lies inside the buffer `m` (an empty range always does). -/
def InBuffer (m : Mem) (dest n : Nat) : Prop := n = 0 ∨ dest + n ≤ m.length

instance (m : Mem) (dest n : Nat) : Decidable (InBuffer m dest n) := by
  unfold InBuffer; infer_instance

/-- The routine `void __aeabi_memclr (void *dest, size_t n)`: its body is the one statement
`__aeabi_memset (dest, n, 0);` where `__aeabi_memset` is the external routine `fill`. -/
def __aeabi_memclr (fill : Fill) (dest n : Nat) (m : Mem) : Option Mem :=
  fill dest n 0 m

/-- The symbol `__aeabi_memclr4`, declared with `alias ("__aeabi_memclr")`. -/
def __aeabi_memclr4 (fill : Fill) (dest n : Nat) (m : Mem) : Option Mem :=
  __aeabi_memclr fill dest n m

/-- The symbol `__aeabi_memclr8`, declared with `alias ("__aeabi_memclr")`. -/
def __aeabi_memclr8 (fill : Fill) (dest n : Nat) (m : Mem) : Option Mem :=
  __aeabi_memclr fill dest n m

/-- Modelled from the spec: a store of one byte through a pointer, which is missing from the
source file; memory access is partial, a store outside the buffer faults. -/
def storeByte (m : Mem) (i b : Nat) : Option Mem :=
  if i < m.length then some (m.set i b) else none

/-- Modelled from the spec: the external byte-fill primitive `__aeabi_memset`, with signature
(destination, length, fill-byte-value), which is declared but not defined in the source file.
It writes the fill byte to every position of `[dest, dest + n)`, one store after the other. -/
def __aeabi_memset : Fill
  | _, 0, _, m => some m
  | dest, k + 1, c, m => (storeByte m dest (toByte c)).bind (__aeabi_memset (dest + 1) k c)

/-- Modelled from the spec: the primitive writes the fill byte to every position of an
in-buffer range `[dest, dest + n)` (and returns). -/
def FillWrites (fill : Fill) : Prop :=
  ∀ (dest n : Nat) (c : Int) (m : Mem), InBuffer m dest n →
    ∃ m', fill dest n c m = some m' ∧
      ∀ i, dest ≤ i → i < dest + n → m'[i]? = some (toByte c)

/-- Modelled from the spec: the primitive, on an in-buffer range `[dest, dest + n)`, returns
and writes only inside that range: the buffer keeps its size and every byte outside the range
keeps its value. -/
def FillFrame (fill : Fill) : Prop :=
  ∀ (dest n : Nat) (c : Int) (m : Mem), InBuffer m dest n →
    ∃ m', fill dest n c m = some m' ∧ m'.length = m.length ∧
      ∀ i, (i < dest ∨ dest + n ≤ i) → m'[i]? = m[i]?

/-- Modelled from the spec: the full contract of the byte-fill primitive, which the
specification assumes correct: on an in-buffer range it returns, writes the fill byte to every
position of the range and changes nothing else. -/
def FillSpec (fill : Fill) : Prop :=
  ∀ (dest n : Nat) (c : Int) (m : Mem), InBuffer m dest n →
    ∃ m', fill dest n c m = some m' ∧ m'.length = m.length ∧
      ∀ i, m'[i]? = if dest ≤ i ∧ i < dest + n then some (toByte c) else m[i]?

/-- Modelled from the spec: the primitive returns (does not fault) on every in-buffer range. -/
def FillReturns (fill : Fill) : Prop :=
  ∀ (dest n : Nat) (c : Int) (m : Mem), InBuffer m dest n → ∃ m', fill dest n c m = some m'

/-- Run `g` on the memory left by `f`, faulting when either faults: two calls in succession. -/
def andThen (f g : Mem → Option Mem) (m : Mem) : Option Mem :=
  (f m).bind g

/-! ## The byte loop meets the contract of the primitive -/

theorem storeByte_eq (m : Mem) (i b : Nat) (h : i < m.length) :
    storeByte m i b = some (m.set i b) := by
  simp [storeByte, h]

theorem aeabi_memset_spec : FillSpec __aeabi_memset := by
  intro dest n
  induction n generalizing dest with
  | zero =>
    intro c m _
    refine ⟨m, rfl, rfl, ?_⟩
    intro i
    have hempty : ¬ (dest ≤ i ∧ i < dest + 0) := by omega
    rw [if_neg hempty]
  | succ k ih =>
    intro c m hin
    have hlen : dest + (k + 1) ≤ m.length := by
      rcases hin with h | h
      · omega
      · exact h
    have hd : dest < m.length := by omega
    have hin1 : InBuffer (m.set dest (toByte c)) (dest + 1) k := by
      right
      simp only [List.length_set]
      omega
    obtain ⟨m', hrun, hsize, hget⟩ := ih (dest + 1) c (m.set dest (toByte c)) hin1
    refine ⟨m', ?_, ?_, ?_⟩
    · simp only [__aeabi_memset, storeByte_eq m dest (toByte c) hd, Option.bind]
      exact hrun
    · rw [hsize, List.length_set]
    · intro i
      rw [hget i]
      by_cases h1 : dest + 1 ≤ i ∧ i < dest + 1 + k
      · have h2 : dest ≤ i ∧ i < dest + (k + 1) := by omega
        rw [if_pos h1, if_pos h2]
      · rw [if_neg h1]
        by_cases h3 : dest = i
        · subst h3
          have h2 : dest ≤ dest ∧ dest < dest + (k + 1) := by omega
          rw [if_pos h2]
          simp [hd]
        · have h2 : ¬ (dest ≤ i ∧ i < dest + (k + 1)) := by omega
          rw [if_neg h2]
          simp [List.getElem?_set, h3]

theorem FillSpec.writes {fill : Fill} (h : FillSpec fill) : FillWrites fill := by
  intro dest n c m hin
  obtain ⟨m', hrun, _, hget⟩ := h dest n c m hin
  refine ⟨m', hrun, ?_⟩
  intro i h1 h2
  rw [hget i, if_pos ⟨h1, h2⟩]

theorem FillSpec.frame {fill : Fill} (h : FillSpec fill) : FillFrame fill := by
  intro dest n c m hin
  obtain ⟨m', hrun, hsize, hget⟩ := h dest n c m hin
  refine ⟨m', hrun, hsize, ?_⟩
  intro i hi
  have : ¬ (dest ≤ i ∧ i < dest + n) := by omega
  rw [hget i, if_neg this]

theorem toByte_zero : toByte 0 = 0 := by decide

theorem FillSpec.returns {fill : Fill} (h : FillSpec fill) : FillReturns fill := by
  intro dest n c m hin
  obtain ⟨m', hrun, _, _⟩ := h dest n c m hin
  exact ⟨m', hrun⟩

/-- Under the full contract of the primitive, one clear of an in-buffer range returns a buffer
of the same size whose bytes are 0 inside the range and unchanged outside. -/
theorem memclr_bytes {fill : Fill} (hfill : FillSpec fill) (m : Mem) (d n : Nat)
    (hin : InBuffer m d n) :
    ∃ m', __aeabi_memclr fill d n m = some m' ∧ m'.length = m.length ∧
      ∀ i, m'[i]? = if d ≤ i ∧ i < d + n then some 0 else m[i]? := by
  obtain ⟨m', hrun, hsize, hget⟩ := hfill d n 0 m hin
  refine ⟨m', hrun, hsize, ?_⟩
  intro i
  rw [hget i, toByte_zero]

theorem InBuffer.of_length_eq {m m' : Mem} {d n : Nat} (h : InBuffer m d n)
    (hsize : m'.length = m.length) : InBuffer m' d n := by
  unfold InBuffer at *
  omega

/-! ## The claims -/

/-- C1: if the external primitive writes its fill byte to every position of an in-buffer range,
then for every memory, offset `d` and length `n` with `[d, d + n)` inside the buffer,
`__aeabi_memclr (d, n)` returns and every byte at an index `i` with `d ≤ i < d + n` is 0. -/
theorem memclr_clears_range (fill : Fill) (hfill : FillWrites fill) (m : Mem) (d n : Nat)
    (hin : InBuffer m d n) :
    ∃ m', __aeabi_memclr fill d n m = some m' ∧
      ∀ i, d ≤ i → i < d + n → m'[i]? = some 0 := by
  obtain ⟨m', hrun, hget⟩ := hfill d n 0 m hin
  refine ⟨m', hrun, ?_⟩
  intro i h1 h2
  rw [hget i h1 h2, toByte_zero]

/-- C1, concrete scenario: a 16-byte buffer of 0xFF cleared with length 16 ends as sixteen
0x00 bytes. -/
theorem memclr_clears_range_witness :
    InBuffer (List.replicate 16 255) 0 16 ∧
    (∃ m', __aeabi_memclr __aeabi_memset 0 16 (List.replicate 16 255) = some m' ∧
      ∀ i, 0 ≤ i → i < 0 + 16 → m'[i]? = some 0) ∧
    __aeabi_memclr __aeabi_memset 0 16 (List.replicate 16 255) = some (List.replicate 16 0) :=
  ⟨by decide,
   memclr_clears_range __aeabi_memset (FillSpec.writes aeabi_memset_spec)
     (List.replicate 16 255) 0 16 (by decide),
   by decide⟩

/-- C2: if the external primitive writes only inside its in-buffer range, then for every memory
and every in-buffer `(d, n)`, `__aeabi_memclr (d, n)` returns a buffer of the same size in which
every byte at an index outside `[d, d + n)` has the value it had before the call. -/
theorem memclr_frame (fill : Fill) (hfill : FillFrame fill) (m : Mem) (d n : Nat)
    (hin : InBuffer m d n) :
    ∃ m', __aeabi_memclr fill d n m = some m' ∧ m'.length = m.length ∧
      ∀ i, (i < d ∨ d + n ≤ i) → m'[i]? = m[i]? :=
  hfill d n 0 m hin

/-- C2, concrete scenario: a 16-byte buffer of 0xFF cleared at offset 0 with length 4 ends with
bytes `[0, 4)` equal to 0x00 and bytes `[4, 16)` still 0xFF. -/
theorem memclr_frame_witness :
    InBuffer (List.replicate 16 255) 0 4 ∧
    (∃ m', __aeabi_memclr __aeabi_memset 0 4 (List.replicate 16 255) = some m' ∧
      m'.length = (List.replicate 16 255).length ∧
      ∀ i, (i < 0 ∨ 0 + 4 ≤ i) → m'[i]? = (List.replicate 16 255)[i]?) ∧
    __aeabi_memclr __aeabi_memset 0 4 (List.replicate 16 255)
      = some (List.replicate 4 0 ++ List.replicate 12 255) :=
  ⟨by decide,
   memclr_frame __aeabi_memset (FillSpec.frame aeabi_memset_spec)
     (List.replicate 16 255) 0 4 (by decide),
   by decide⟩

/-- C3: if the external primitive writes only inside its range, then for every memory and every
destination `d`, `__aeabi_memclr (d, 0)` returns and the memory after the call is the memory
before it. -/
theorem memclr_zero_length (fill : Fill) (hfill : FillFrame fill) (m : Mem) (d : Nat) :
    __aeabi_memclr fill d 0 m = some m := by
  obtain ⟨m', hrun, _, hget⟩ := hfill d 0 0 m (Or.inl rfl)
  have hm : m' = m := by
    apply List.ext_getElem?
    intro i
    exact hget i (by omega)
  rw [← hm]
  exact hm ▸ hrun

/-- C3 at the byte loop: a zero-length clear of a 16-byte buffer, here through a destination
past the end of the buffer, returns the buffer unchanged. -/
theorem memclr_zero_length_witness :
    __aeabi_memclr __aeabi_memset 99 0 (List.replicate 16 255) = some (List.replicate 16 255) :=
  memclr_zero_length __aeabi_memset (FillSpec.frame aeabi_memset_spec) (List.replicate 16 255) 99

/-- C4: the alignment-specialized entry points `__aeabi_memclr4` and `__aeabi_memclr8` are the
same function as `__aeabi_memclr`: for every primitive, destination (aligned or not), length
and memory they produce the same result. -/
theorem memclr_aliases :
    __aeabi_memclr4 = __aeabi_memclr ∧ __aeabi_memclr8 = __aeabi_memclr ∧
    ∀ (fill : Fill) (d n : Nat) (m : Mem),
      __aeabi_memclr4 fill d n m = __aeabi_memclr fill d n m ∧
      __aeabi_memclr8 fill d n m = __aeabi_memclr fill d n m :=
  ⟨rfl, rfl, fun _ _ _ _ => ⟨rfl, rfl⟩⟩

/-- C5: under the contract of the external primitive, for every memory and every in-buffer
`(d, n)`, calling `__aeabi_memclr (d, n)` twice in succession returns, and returns the same
memory as calling it once. -/
theorem memclr_idempotent (fill : Fill) (hfill : FillSpec fill) (m : Mem) (d n : Nat)
    (hin : InBuffer m d n) :
    ∃ m', __aeabi_memclr fill d n m = some m' ∧
      andThen (__aeabi_memclr fill d n) (__aeabi_memclr fill d n) m = some m' := by
  obtain ⟨m1, hrun1, hsize1, hget1⟩ := memclr_bytes hfill m d n hin
  obtain ⟨m2, hrun2, _, hget2⟩ := memclr_bytes hfill m1 d n (hin.of_length_eq hsize1)
  have hm : m2 = m1 := by
    apply List.ext_getElem?
    intro i
    rw [hget2 i]
    by_cases h : d ≤ i ∧ i < d + n
    · rw [if_pos h, hget1 i, if_pos h]
    · rw [if_neg h]
  refine ⟨m1, hrun1, ?_⟩
  simp only [andThen, hrun1, Option.bind]
  rw [hrun2, hm]

/-- C5 at the byte loop: clearing bytes `[2, 7)` of a 16-byte buffer of 0xFF twice gives the
same memory as clearing them once. -/
theorem memclr_idempotent_witness :
    InBuffer (List.replicate 16 255) 2 5 ∧
    ∃ m', __aeabi_memclr __aeabi_memset 2 5 (List.replicate 16 255) = some m' ∧
      andThen (__aeabi_memclr __aeabi_memset 2 5) (__aeabi_memclr __aeabi_memset 2 5)
        (List.replicate 16 255) = some m' :=
  ⟨by decide,
   memclr_idempotent __aeabi_memset aeabi_memset_spec (List.replicate 16 255) 2 5 (by decide)⟩

/-- C6: for every primitive supplied as `__aeabi_memset`, `__aeabi_memclr (d, n)` is exactly the
result of that primitive called with (destination `d`, length `n`, fill value 0), and `(d, n, 0)`
is the only argument triple for which that holds for every primitive: length is the second
argument and the fill value the third. -/
theorem memclr_forwards :
    (∀ (fill : Fill) (d n : Nat) (m : Mem), __aeabi_memclr fill d n m = fill d n 0 m) ∧
    ∀ (d n a b : Nat) (c : Int),
      (∀ (fill : Fill) (m : Mem), __aeabi_memclr fill d n m = fill a b c m) ↔
        (a = d ∧ b = n ∧ c = 0) := by
  refine ⟨fun _ _ _ _ => rfl, ?_⟩
  intro d n a b c
  constructor
  · intro h
    have hprobe := h (fun x y z _ => if x = d ∧ y = n ∧ z = 0 then some [] else none) []
    simp only [__aeabi_memclr, and_self, if_true] at hprobe
    by_contra hne
    rw [if_neg hne] at hprobe
    exact Option.noConfusion hprobe
  · rintro ⟨rfl, rfl, rfl⟩ fill m
    rfl

/-- C7: with memory access partial (a store outside the buffer faults) and a primitive that
returns on every in-buffer range, for every memory and every `(d, n)` with `d + n` not above
the buffer size, `__aeabi_memclr (d, n)` returns a memory and does not fault. -/
theorem memclr_no_failure (fill : Fill) (hfill : FillReturns fill) (m : Mem) (d n : Nat)
    (hle : d + n ≤ m.length) :
    (∃ m', __aeabi_memclr fill d n m = some m') ∧ __aeabi_memclr fill d n m ≠ none := by
  obtain ⟨m', hrun⟩ := hfill d n 0 m (Or.inr hle)
  refine ⟨⟨m', hrun⟩, ?_⟩
  show fill d n 0 m ≠ none
  rw [hrun]
  exact Option.noConfusion

/-- C7 at the byte loop, whose stores fault outside the buffer: clearing the last 6 bytes of a
16-byte buffer returns. -/
theorem memclr_no_failure_witness :
    10 + 6 ≤ (List.replicate 16 255).length ∧
    (∃ m', __aeabi_memclr __aeabi_memset 10 6 (List.replicate 16 255) = some m') ∧
    __aeabi_memclr __aeabi_memset 10 6 (List.replicate 16 255) ≠ none :=
  ⟨by decide,
   memclr_no_failure __aeabi_memset (FillSpec.returns aeabi_memset_spec)
     (List.replicate 16 255) 10 6 (by decide)⟩

/-- C8: under the contract of the external primitive, for every memory and every two in-buffer
ranges `(d1, n1)` and `(d2, n2)`, overlapping or not, clearing them in either order returns the
same memory, in which a byte is 0 if its index lies in either range and is otherwise unchanged. -/
theorem memclr_commutes (fill : Fill) (hfill : FillSpec fill) (m : Mem) (d1 n1 d2 n2 : Nat)
    (hin1 : InBuffer m d1 n1) (hin2 : InBuffer m d2 n2) :
    ∃ r, andThen (__aeabi_memclr fill d1 n1) (__aeabi_memclr fill d2 n2) m = some r ∧
      andThen (__aeabi_memclr fill d2 n2) (__aeabi_memclr fill d1 n1) m = some r ∧
      r.length = m.length ∧
      ∀ i, r[i]? =
        if (d1 ≤ i ∧ i < d1 + n1) ∨ (d2 ≤ i ∧ i < d2 + n2) then some 0 else m[i]? := by
  obtain ⟨a, hrunA, hsizeA, hgetA⟩ := memclr_bytes hfill m d1 n1 hin1
  obtain ⟨r, hrunR, hsizeR, hgetR⟩ := memclr_bytes hfill a d2 n2 (hin2.of_length_eq hsizeA)
  obtain ⟨b, hrunB, hsizeB, hgetB⟩ := memclr_bytes hfill m d2 n2 hin2
  obtain ⟨r', hrunR', _, hgetR'⟩ := memclr_bytes hfill b d1 n1 (hin1.of_length_eq hsizeB)
  have hr : ∀ i, r[i]? =
      if (d1 ≤ i ∧ i < d1 + n1) ∨ (d2 ≤ i ∧ i < d2 + n2) then some 0 else m[i]? := by
    intro i
    rw [hgetR i, hgetA i]
    by_cases h1 : d1 ≤ i ∧ i < d1 + n1 <;> by_cases h2 : d2 ≤ i ∧ i < d2 + n2 <;>
      simp [h1, h2]
  have hr' : ∀ i, r'[i]? =
      if (d1 ≤ i ∧ i < d1 + n1) ∨ (d2 ≤ i ∧ i < d2 + n2) then some 0 else m[i]? := by
    intro i
    rw [hgetR' i, hgetB i]
    by_cases h1 : d1 ≤ i ∧ i < d1 + n1 <;> by_cases h2 : d2 ≤ i ∧ i < d2 + n2 <;>
      simp [h1, h2]
  have heq : r' = r := by
    apply List.ext_getElem?
    intro i
    rw [hr i, hr' i]
  refine ⟨r, ?_, ?_, ?_, ?_⟩
  · simp only [andThen, hrunA, Option.bind]
    exact hrunR
  · simp only [andThen, hrunB, Option.bind]
    rw [hrunR', heq]
  · rw [hsizeR, hsizeA]
  · exact hr

/-- C8 at the byte loop: clearing the overlapping ranges `[2, 8)` and `[5, 12)` of a 16-byte
buffer of 0xFF in either order leaves bytes `[2, 12)` equal to 0x00 and the others 0xFF. -/
theorem memclr_commutes_witness :
    InBuffer (List.replicate 16 255) 2 6 ∧ InBuffer (List.replicate 16 255) 5 7 ∧
    (∃ r, andThen (__aeabi_memclr __aeabi_memset 2 6) (__aeabi_memclr __aeabi_memset 5 7)
        (List.replicate 16 255) = some r ∧
      andThen (__aeabi_memclr __aeabi_memset 5 7) (__aeabi_memclr __aeabi_memset 2 6)
        (List.replicate 16 255) = some r ∧
      r.length = (List.replicate 16 255).length ∧
      ∀ i, r[i]? =
        if (2 ≤ i ∧ i < 2 + 6) ∨ (5 ≤ i ∧ i < 5 + 7) then some 0
        else (List.replicate 16 255)[i]?) ∧
    andThen (__aeabi_memclr __aeabi_memset 2 6) (__aeabi_memclr __aeabi_memset 5 7)
      (List.replicate 16 255)
      = some (List.replicate 2 255 ++ List.replicate 10 0 ++ List.replicate 4 255) :=
  ⟨by decide, by decide,
   memclr_commutes __aeabi_memset aeabi_memset_spec (List.replicate 16 255) 2 6 5 7
     (by decide) (by decide),
   by decide⟩

end AeabiMemclr
